import Mathlib

/-!
Verification of the versioned text buffer (`text_history.py`).

A shallow embedding of the repository's single module: a `TextHistory`
holding the current text, a version counter and an append-only log of
`Action`s (insert / replace / delete), together with the query-time
compaction pass (`optimize`) and the range query (`get_actions`).

Conventions of the embedding:
* Python `str` values become `List Char`; Python `int` becomes `Int`.
* Python slicing `s[:i]` / `s[i:]` (including its clamping and
  negative-index behaviour) is modelled by `sliceTo` / `sliceFrom`.
* A raised `ValueError` becomes an error value.  The three raise sites
  are distinguished by their context, matching the error taxonomy of
  the documentation: `invalidPosition` (raised inside `Action.apply`),
  `versionMismatch` (raised by `TextHistory.action`), `invalidRange`
  (raised by `TextHistory.get_actions`).
* A mutating method becomes a function returning the state after the
  call paired with `Option Err`: `none` means normal return, `some e`
  means the exception `e` escaped, with the state component recording
  exactly the attribute assignments executed before the raise.
-/

namespace TH

/-- The error kinds raised by the module (all are `ValueError` in the
source; they are told apart here by raise site, following the spec's
names). -/
inductive Err : Type where
  | invalidPosition : Err
  | versionMismatch : Err
  | invalidRange : Err
deriving DecidableEq, Repr

/-- Effective index of the Python slice bound `i` into a sequence of
length `n`: a negative bound counts from the end (clamped at 0), a
non-negative bound is clamped at `n`. -/
def pyIdx (n : Nat) (i : Int) : Nat :=
  if i < 0 then ((n : Int) + i).toNat else min i.toNat n

/-- Python `s[:i]`. -/
def sliceTo (s : List Char) (i : Int) : List Char :=
  s.take (pyIdx s.length i)

/-- Python `s[i:]`. -/
def sliceFrom (s : List Char) (i : Int) : List Char :=
  s.drop (pyIdx s.length i)

/-- The three action variants (`InsertAction`, `ReplaceAction`,
`DeleteAction`).  Each carries `pos`, its payload (`text` for insert
and replace, `length` for delete) and the version interval
`from_version`/`to_version`. -/
inductive Action : Type where
  | insert (pos : Int) (text : List Char) (from_version to_version : Int)
  | replace (pos : Int) (text : List Char) (from_version to_version : Int)
  | delete (pos : Int) (length : Int) (from_version to_version : Int)
deriving DecidableEq, Repr

namespace Action

/-- Accessor `Action.pos`. -/
def pos : Action → Int
  | .insert p _ _ _ => p
  | .replace p _ _ _ => p
  | .delete p _ _ _ => p

/-- Accessor `Action.from_version`. -/
def from_version : Action → Int
  | .insert _ _ f _ => f
  | .replace _ _ f _ => f
  | .delete _ _ f _ => f

/-- Accessor `Action.to_version`. -/
def to_version : Action → Int
  | .insert _ _ _ t => t
  | .replace _ _ _ t => t
  | .delete _ _ _ t => t

/-- The `apply` method of the three variants.  `none` models the
raised `ValueError` ("incorrect pos in ...Action"), i.e. the spec's
`InvalidPosition`. -/
def apply : Action → List Char → Option (List Char)
  | .insert p c _ _, text =>
      if p > (text.length : Int) ∨ p < 0 then none
      else some (sliceTo text p ++ c ++ sliceFrom text p)
  | .replace p c _ _, text =>
      if p > (text.length : Int) ∨ p < 0 then none
      else
        let end_idx : Int := p + (c.length : Int)
        if end_idx ≥ (text.length : Int) then some (sliceTo text p ++ c)
        else some (sliceTo text p ++ c ++ sliceFrom text end_idx)
  | .delete p l _ _, text =>
      if p + l > (text.length : Int) ∨ p < 0 then none
      else some (sliceTo text p ++ sliceFrom text (p + l))

/-- The variant tag of an action, used to model Python's
`isinstance(x, type(y))` test between the three (unrelated, leaf)
action classes. -/
def kind : Action → Nat
  | .insert _ _ _ _ => 0
  | .replace _ _ _ _ => 1
  | .delete _ _ _ _ => 2

/-- The data-model constraint on a delete's payload: `length` is a
non-negative integer (insert and replace payloads are strings and
carry no constraint). -/
def okLen : Action → Bool
  | .delete _ l _ _ => decide (0 ≤ l)
  | _ => true

end Action

/-- The `TextHistory` object state: `_text`, `_version` and
`__actions_list`. -/
structure TextHistory : Type where
  text : List Char
  version : Int
  log : List Action
deriving DecidableEq, Repr

/-- A freshly constructed `TextHistory()`. -/
def initialHistory : TextHistory :=
  { text := [], version := 0, log := [] }

namespace TextHistory

/-- Method `TextHistory.action`: validates version continuity, applies the
action to the stored text, advances the version and appends the action
to the log.  The returned pair is the object state after the call plus
the escaped exception, if any; on an exception no attribute has been
assigned yet (the version test precedes everything, and `apply` is
evaluated before the assignment to `self._text`). -/
def action (h : TextHistory) (a : Action) : TextHistory × Option Err :=
  if h.version ≠ a.from_version then (h, some Err.versionMismatch)
  else
    match a.apply h.text with
    | none => (h, some Err.invalidPosition)
    | some newText =>
        ({ text := newText, version := a.to_version, log := h.log ++ [a] },
         none)

end TextHistory

/-- A call to one of the three public mutation methods, with the
optional position argument (`none` models Python's `pos=None`
default). -/
inductive Mutation : Type where
  | insert (txt : List Char) (pos : Option Int)
  | replace (txt : List Char) (pos : Option Int)
  | delete (pos : Int) (length : Int)
deriving DecidableEq, Repr

/-- One mutation method call: resolves the defaulted position to
`len(self._text)`, builds the action with `from_version = version`,
`to_version = version + 1` and funnels it through
`TextHistory.action`. -/
def TextHistory.runMutation (h : TextHistory) : Mutation → TextHistory × Option Err
  | .insert txt pos =>
      h.action (Action.insert (pos.getD (h.text.length : Int)) txt
        h.version (h.version + 1))
  | .replace txt pos =>
      h.action (Action.replace (pos.getD (h.text.length : Int)) txt
        h.version (h.version + 1))
  | .delete pos length =>
      h.action (Action.delete pos length h.version (h.version + 1))

/-- Runs a sequence of mutation calls; `none` as soon as one raises. -/
def runMutations : TextHistory → List Mutation → Option TextHistory
  | h, [] => some h
  | h, m :: ms =>
      match h.runMutation m with
      | (h', none) => runMutations h' ms
      | (_, some _) => none

/-- Sequentially applies a list of actions to a text (`none` as soon
as one raises): the replay / equivalence semantics of a log
fragment. -/
def applyActions : List Action → List Char → Option (List Char)
  | [], t => some t
  | a :: rest, t =>
      match a.apply t with
      | none => none
      | some t' => applyActions rest t'

namespace TextHistory

/-- Method `TextHistory.try_merge_delete`: when the last entry of the output
list is a delete anchored at the same position as the candidate, pop
it and append the merged delete (summed lengths, spanning version
interval); otherwise append the candidate.  The caller guarantees the
output list is non-empty with a last entry of the candidate's kind;
the fallback branches are unreachable from `optimize`. -/
def try_merge_delete (a : Action) (optimize_act_list : List Action) :
    List Action :=
  match optimize_act_list.getLast?, a with
  | some (Action.delete ppos plen pfrom _), Action.delete apos alen _ ato =>
      if ppos = apos then
        optimize_act_list.dropLast ++ [Action.delete apos (plen + alen) pfrom ato]
      else optimize_act_list ++ [a]
  | _, _ => optimize_act_list ++ [a]

/-- Method `TextHistory.try_merge_insert`: when the candidate's position is
exactly the end of the last entry's inserted content, pop the last
entry and append the merged insert (concatenated contents, spanning
version interval); otherwise append the candidate. -/
def try_merge_insert (a : Action) (optimize_act_list : List Action) :
    List Action :=
  match optimize_act_list.getLast?, a with
  | some (Action.insert ppos ptxt pfrom _), Action.insert apos atxt _ ato =>
      if apos = ppos + (ptxt.length : Int) then
        optimize_act_list.dropLast ++
          [Action.insert ppos (ptxt ++ atxt) pfrom ato]
      else optimize_act_list ++ [a]
  | _, _ => optimize_act_list ++ [a]

/-- The body of the loop in `TextHistory.optimize` for one candidate
action: on an empty output list, or a last entry of a different
variant, append the candidate; on a matching variant dispatch to the
merge helper (replace actions are never merged). -/
def optimizeStep (optimize_act_list : List Action) (a : Action) :
    List Action :=
  match optimize_act_list.getLast? with
  | none => optimize_act_list ++ [a]
  | some last =>
      if last.kind = a.kind then
        match a with
        | Action.insert _ _ _ _ => try_merge_insert a optimize_act_list
        | Action.delete _ _ _ _ => try_merge_delete a optimize_act_list
        | Action.replace _ _ _ _ => optimize_act_list ++ [a]
      else optimize_act_list ++ [a]

/-- Method `TextHistory.optimize`: the single left-to-right compaction pass
over a list of actions. -/
def optimize (act_list : List Action) : List Action :=
  act_list.foldl optimizeStep []

/-- Method `TextHistory.get_actions`: defaults the bounds to `0` and the
current version, validates the range (any violation raises the same
`ValueError`, the spec's `InvalidRange`), then selects the logged
actions whose `from_version` lies in the half-open window and returns
the compaction of that sublist. -/
def get_actions (h : TextHistory) (from_version to_version : Option Int) :
    Except Err (List Action) :=
  let fv := from_version.getD 0
  let tv := to_version.getD h.version
  if fv > h.version ∨ tv > h.version then Except.error Err.invalidRange
  else if fv > tv then Except.error Err.invalidRange
  else if fv < 0 ∨ tv < 0 then Except.error Err.invalidRange
  else
    Except.ok (optimize (h.log.filter
      (fun a => decide (fv ≤ a.from_version) && decide (a.from_version < tv))))

end TextHistory

/-- The character `Char.ofNat 123`, an opening curly brace. -/
def lbrace : Char := Char.ofNat 123

/-- The character `Char.ofNat 125`, a closing curly brace. -/
def rbrace : Char := Char.ofNat 125

/-- Python's `str.format` with positional automatic fields: each
brace pair in the template is replaced by the next argument.  (The
source always supplies exactly as many arguments as fields.) -/
def pyFormat : List Char → List String → List Char
  | [], _ => []
  | c :: cs, [] => c :: pyFormat cs []
  | [c], _ :: _ => [c]
  | c :: c2 :: rest, a :: args =>
      if c = lbrace ∧ c2 = rbrace then a.data ++ pyFormat rest args
      else c :: pyFormat (c2 :: rest) (a :: args)

/-- The template literal of `InsertAction.__str__`, written as the
part before the backslash line continuation followed by the 16 spaces
of continuation-line indentation and the remainder. -/
def insertTemplate : String :=
  "insert(\x7b\x7d, pos=\x7b\x7d, " ++ "                " ++
    "ver1=\x7b\x7d, ver2=\x7b\x7d)"

/-- The template literal of `ReplaceAction.__str__`. -/
def replaceTemplate : String :=
  "replace(\x7b\x7d, pos=\x7b\x7d, " ++ "                " ++
    "ver1=\x7b\x7d, ver2=\x7b\x7d)"

/-- The template literal of `DeleteAction.__str__`. -/
def deleteTemplate : String :=
  "delete(pos=\x7b\x7d, length=\x7b\x7d, " ++ "                " ++
    "ver1=\x7b\x7d, ver2=\x7b\x7d)"

/-- The `__str__` rendering of each variant, formatting the template
with the argument tuple passed in the source (`text, pos` for insert
and replace; `pos, length` for delete; then the version interval). -/
def Action.str : Action → String
  | Action.insert p c f v =>
      String.mk (pyFormat insertTemplate.data
        [String.mk c, toString p, toString f, toString v])
  | Action.replace p c f v =>
      String.mk (pyFormat replaceTemplate.data
        [String.mk c, toString p, toString f, toString v])
  | Action.delete p l f v =>
      String.mk (pyFormat deleteTemplate.data
        [toString p, toString l, toString f, toString v])

example : Action.apply (Action.insert 0 ['a'] 0 1) [] = some ['a'] := by decide
example : Action.apply (Action.replace 4 ['X', 'Y'] 0 1)
    ['h', 'e', 'l', 'l', 'o'] = some ['h', 'e', 'l', 'l', 'X', 'Y'] := by decide
example : Action.apply (Action.replace 2 ['Z'] 0 1)
    ['h', 'e', 'l', 'l', 'o'] = some ['h', 'e', 'Z', 'l', 'o'] := by decide
example : Action.apply (Action.delete 3 10 0 1)
    ['h', 'e', 'l', 'l', 'o'] = none := by decide
example :
    runMutations initialHistory
      [Mutation.insert ['a', 'b'] none, Mutation.delete 0 1] =
    some { text := ['b'], version := 2,
           log := [Action.insert 0 ['a', 'b'] 0 1, Action.delete 0 1 1 2] } := by
  decide

example :
    (runMutations initialHistory
      [Mutation.insert ['a'] (some 0), Mutation.insert ['b'] (some 1),
       Mutation.insert ['c'] (some 2)]).map
      (fun h => h.get_actions none none) =
    some (Except.ok [Action.insert 0 ['a', 'b', 'c'] 0 3]) := rfl

example :
    (runMutations initialHistory
      [Mutation.insert ['a'] (some 0), Mutation.insert ['b'] (some 5)]) =
    none := by decide

example :
    (runMutations initialHistory
      [Mutation.insert ['a', 'b'] none, Mutation.delete 0 1,
       Mutation.delete 0 1]).map (fun h => h.get_actions none none) =
    some (Except.ok [Action.insert 0 ['a', 'b'] 0 1, Action.delete 0 2 1 3]) := rfl

example :
    initialHistory.get_actions (some 5) (some 2) =
    Except.error Err.invalidRange := rfl

/-- For a non-negative bound the Python prefix slice is `List.take`. -/
theorem sliceTo_of_nonneg (t : List Char) (i : Int) (h : 0 ≤ i) :
    sliceTo t i = t.take i.toNat := by
  unfold sliceTo pyIdx
  rw [if_neg (by omega)]
  rcases le_or_lt i.toNat t.length with hle | hlt
  · rw [min_eq_left hle]
  · rw [min_eq_right hlt.le, List.take_length,
      List.take_of_length_le hlt.le]

/-- For a non-negative bound the Python suffix slice is `List.drop`. -/
theorem sliceFrom_of_nonneg (t : List Char) (i : Int) (h : 0 ≤ i) :
    sliceFrom t i = t.drop i.toNat := by
  unfold sliceFrom pyIdx
  rw [if_neg (by omega)]
  rcases le_or_lt i.toNat t.length with hle | hlt
  · rw [min_eq_left hle]
  · rw [min_eq_right hlt.le, List.drop_length,
      List.drop_eq_nil_of_le hlt.le]

/-- C2.  `ReplaceAction.apply` fails with `InvalidPosition` exactly
when the position is negative or beyond the end of the text; within
bounds it truncates the tail and appends the content when
`position + length(content)` falls at or beyond the end of the text
(including the exact-fit case), and splices the content over the
window `[position, position + length(content))` otherwise. -/
theorem replace_apply_spec (p : Int) (c t : List Char) (f v : Int) :
    (Action.apply (Action.replace p c f v) t = none ↔
      p < 0 ∨ p > (t.length : Int)) ∧
    (0 ≤ p → p ≤ (t.length : Int) → (t.length : Int) ≤ p + (c.length : Int) →
      Action.apply (Action.replace p c f v) t = some (t.take p.toNat ++ c)) ∧
    (0 ≤ p → p + (c.length : Int) < (t.length : Int) →
      Action.apply (Action.replace p c f v) t =
        some (t.take p.toNat ++ c ++ t.drop (p.toNat + c.length))) := by
  refine ⟨?_, ?_, ?_⟩
  · simp only [Action.apply]
    by_cases h : p > (t.length : Int) ∨ p < 0
    · rw [if_pos h]
      exact iff_of_true rfl (by omega)
    · rw [if_neg h]
      show (if p + (c.length : Int) ≥ (t.length : Int)
          then some (sliceTo t p ++ c)
          else some (sliceTo t p ++ c ++ sliceFrom t (p + (c.length : Int)))) =
          none ↔ p < 0 ∨ p > (t.length : Int)
      split_ifs <;> simp <;> omega
  · intro h0 h1 h2
    simp only [Action.apply]
    rw [if_neg (by omega)]
    show (if p + (c.length : Int) ≥ (t.length : Int)
        then some (sliceTo t p ++ c)
        else some (sliceTo t p ++ c ++ sliceFrom t (p + (c.length : Int)))) = _
    rw [if_pos (by omega), sliceTo_of_nonneg t p h0]
  · intro h0 h2
    simp only [Action.apply]
    rw [if_neg (by omega)]
    show (if p + (c.length : Int) ≥ (t.length : Int)
        then some (sliceTo t p ++ c)
        else some (sliceTo t p ++ c ++ sliceFrom t (p + (c.length : Int)))) = _
    rw [if_neg (by omega), sliceTo_of_nonneg t p h0,
      sliceFrom_of_nonneg t _ (by omega)]
    have harith : (p + (c.length : Int)).toNat = p.toNat + c.length := by omega
    rw [harith]

/-- Witness for C2 on the documentation's own examples:
`replace("XY", 4)` on `"hello"` hits the truncation branch and
`replace("Z", 2)` on `"hello"` hits the splice branch. -/
theorem replace_apply_spec_witness :
    Action.apply (Action.replace 4 ['X', 'Y'] 0 1) ['h', 'e', 'l', 'l', 'o'] =
      some (['h', 'e', 'l', 'l', 'o'].take (4 : Int).toNat ++ ['X', 'Y']) ∧
    Action.apply (Action.replace 2 ['Z'] 0 1) ['h', 'e', 'l', 'l', 'o'] =
      some (['h', 'e', 'l', 'l', 'o'].take (2 : Int).toNat ++ ['Z'] ++
        ['h', 'e', 'l', 'l', 'o'].drop ((2 : Int).toNat + ['Z'].length)) :=
  ⟨(replace_apply_spec 4 ['X', 'Y'] ['h', 'e', 'l', 'l', 'o'] 0 1).2.1
      (by decide) (by decide) (by decide),
   (replace_apply_spec 2 ['Z'] ['h', 'e', 'l', 'l', 'o'] 0 1).2.2
      (by decide) (by decide)⟩

/-- C3.  `TextHistory.action` raises `VersionMismatch` exactly on a
version discontinuity, raises `InvalidPosition` exactly when the
version matches and the action's `apply` fails, leaves the whole state
untouched whenever it raises (all-or-nothing), and on success commits
the new text, the action's `to_version`, and the appended log
entry. -/
theorem action_spec (h : TextHistory) (a : Action) :
    (h.action a = (h, some Err.versionMismatch) ↔
      h.version ≠ a.from_version) ∧
    (h.action a = (h, some Err.invalidPosition) ↔
      h.version = a.from_version ∧ a.apply h.text = none) ∧
    ((h.action a).2 ≠ none → (h.action a).1 = h) ∧
    (∀ t, h.version = a.from_version → a.apply h.text = some t →
      h.action a =
        ({ text := t, version := a.to_version, log := h.log ++ [a] },
         none)) := by
  have mismatch : h.version ≠ a.from_version →
      h.action a = (h, some Err.versionMismatch) := fun hv => by
    unfold TextHistory.action
    rw [if_pos hv]
  have invalid : h.version = a.from_version → a.apply h.text = none →
      h.action a = (h, some Err.invalidPosition) := fun hv happ => by
    unfold TextHistory.action
    rw [if_neg (not_not_intro hv), happ]
  have ok : ∀ t, h.version = a.from_version → a.apply h.text = some t →
      h.action a =
        ({ text := t, version := a.to_version, log := h.log ++ [a] },
         none) := fun t hv happ => by
    unfold TextHistory.action
    rw [if_neg (not_not_intro hv), happ]
  refine ⟨⟨fun heq => ?_, mismatch⟩, ⟨fun heq => ?_, fun hpair =>
    invalid hpair.1 hpair.2⟩, fun hne => ?_, ok⟩
  · by_contra hv
    rcases happ : a.apply h.text with _ | t
    · rw [invalid hv happ] at heq
      simp at heq
    · rw [ok t hv happ] at heq
      simp at heq
  · by_cases hv : h.version = a.from_version
    · rcases happ : a.apply h.text with _ | t
      · exact ⟨hv, rfl⟩
      · rw [ok t hv happ] at heq
        simp at heq
    · rw [mismatch hv] at heq
      simp at heq
  · by_cases hv : h.version = a.from_version
    · rcases happ : a.apply h.text with _ | t
      · rw [invalid hv happ]
      · rw [ok t hv happ] at hne
        simp at hne
    · rw [mismatch hv]

/-- Witness for C3: a stale action (`from_version = 5` against a fresh
history at version `0`) raises `VersionMismatch` and leaves the state
untouched. -/
theorem action_spec_witness :
    initialHistory.action (Action.insert 0 ['a'] 5 6) =
      (initialHistory, some Err.versionMismatch) :=
  (action_spec initialHistory (Action.insert 0 ['a'] 5 6)).1.mpr (by decide)

/-- C10.  `TextHistory.action` never validates `to_version`: whenever
the action's `from_version` matches the current version and its
`apply` succeeds, the call succeeds and sets the version to the
action's `to_version`, whatever it is. -/
theorem action_no_to_version_check (h : TextHistory) (a : Action)
    (t : List Char) (h1 : a.from_version = h.version)
    (h2 : a.apply h.text = some t) :
    h.action a =
      ({ text := t, version := a.to_version, log := h.log ++ [a] },
       none) := by
  unfold TextHistory.action
  rw [if_neg (not_not_intro h1.symm), h2]

/-- Witness for C10: a hand-built insert with `to_version = 5` applied
to a fresh history succeeds and jumps the version from `0` straight to
`5`; a follow-up action built against version `5` then leaves a log
whose entry at index `1` has `from_version = 5`, violating the
`i`-th-entry invariant. -/
theorem action_no_to_version_check_witness :
    initialHistory.action (Action.insert 0 ['x'] 0 5) =
      ({ text := ['x'], version := 5,
         log := initialHistory.log ++ [Action.insert 0 ['x'] 0 5] },
       none) ∧
    (initialHistory.action (Action.insert 0 ['x'] 0 5)).1.version = 5 ∧
    (((initialHistory.action (Action.insert 0 ['x'] 0 5)).1.action
        (Action.insert 1 ['y'] 5 6)).1.log.getD 1
          (Action.insert 0 [] 0 0)).from_version = 5 :=
  ⟨action_no_to_version_check initialHistory (Action.insert 0 ['x'] 0 5)
      ['x'] (by decide) (by decide),
   by decide, by decide⟩

/-- C7.  With explicit bounds, `get_actions` fails with `InvalidRange`
exactly when a bound is negative, the bounds are inverted, or a bound
exceeds the current version; in particular `get_actions(5, 2)` always
fails, and so does any `to_version` strictly above the current
version. -/
theorem get_actions_range_validation (h : TextHistory) (fv tv : Int) :
    (h.get_actions (some fv) (some tv) = Except.error Err.invalidRange ↔
      fv < 0 ∨ tv < 0 ∨ fv > tv ∨ fv > h.version ∨ tv > h.version) ∧
    h.get_actions (some 5) (some 2) = Except.error Err.invalidRange ∧
    (∀ k : Int, 0 < k →
      h.get_actions none (some (h.version + k)) =
        Except.error Err.invalidRange) := by
  refine ⟨?_, ?_, fun k hk => ?_⟩
  · unfold TextHistory.get_actions
    simp only [Option.getD_some]
    split_ifs with h1 h2 h3
    · exact iff_of_true rfl (by omega)
    · exact iff_of_true rfl (by omega)
    · exact iff_of_true rfl (by omega)
    · exact iff_of_false (by simp) (by omega)
  · unfold TextHistory.get_actions
    simp only [Option.getD_some]
    split_ifs with h1 h2 h3 <;> first | rfl | omega
  · unfold TextHistory.get_actions
    simp only [Option.getD_some, Option.getD_none]
    rw [if_pos (Or.inr (by omega))]

/-- Witness for C7: on a fresh history (version 0),
`get_actions(to_version = 1000)` fails with `InvalidRange`. -/
theorem get_actions_range_validation_witness :
    initialHistory.get_actions none (some (initialHistory.version + 1000)) =
      Except.error Err.invalidRange :=
  (get_actions_range_validation initialHistory 0 0).2.2 1000 (by decide)

/-- C6.  For bounds surviving validation, `get_actions` returns the
compaction of exactly the logged actions whose `from_version` lies in
the half-open window `[from_version, to_version)`, kept in log
order. -/
theorem get_actions_selection (h : TextHistory) (fv tv : Int)
    (h0 : 0 ≤ fv) (h1 : fv ≤ tv) (h2 : tv ≤ h.version) :
    h.get_actions (some fv) (some tv) =
      Except.ok (TextHistory.optimize (h.log.filter
        (fun a => decide (fv ≤ a.from_version) &&
          decide (a.from_version < tv)))) := by
  unfold TextHistory.get_actions
  simp only [Option.getD_some]
  rw [if_neg (by omega), if_neg (by omega), if_neg (by omega)]

/-- Witness for C6 on a two-entry history queried over `[0, 1)`: only
the first logged action is selected. -/
theorem get_actions_selection_witness :
    ({ text := ['a', 'b'], version := 2,
       log := [Action.insert 0 ['a'] 0 1, Action.insert 1 ['b'] 1 2] } :
        TextHistory).get_actions (some 0) (some 1) =
      Except.ok (TextHistory.optimize
        (({ text := ['a', 'b'], version := 2,
            log := [Action.insert 0 ['a'] 0 1, Action.insert 1 ['b'] 1 2] } :
              TextHistory).log.filter
          (fun a => decide ((0 : Int) ≤ a.from_version) &&
            decide (a.from_version < (1 : Int))))) :=
  get_actions_selection _ 0 1 (by decide) (by decide) (by decide)

/-- C4.  In the compaction pass, a candidate insert whose position is
exactly the end of the content inserted by the last output entry (also
an insert) replaces that entry with a single merged insert carrying
the last entry's position and `from_version`, the concatenated
contents and the candidate's `to_version`; concretely, three
back-to-back single-character inserts on a fresh history compact to
the one insert `insert("abc", 0)` spanning versions `0` to `3`. -/
theorem insert_merge_spec :
    (∀ (out : List Action) (p : Int) (c : List Char) (f v p2 : Int)
        (c2 : List Char) (f2 v2 : Int),
      out.getLast? = some (Action.insert p c f v) →
      p2 = p + (c.length : Int) →
      TextHistory.optimizeStep out (Action.insert p2 c2 f2 v2) =
        out.dropLast ++ [Action.insert p (c ++ c2) f v2]) ∧
    (runMutations initialHistory
        [Mutation.insert ['a'] (some 0), Mutation.insert ['b'] (some 1),
         Mutation.insert ['c'] (some 2)]).map
      (fun h => h.get_actions none none) =
      some (Except.ok [Action.insert 0 ['a', 'b', 'c'] 0 3]) := by
  constructor
  · intro out p c f v p2 c2 f2 v2 hlast hp
    unfold TextHistory.optimizeStep
    rw [hlast]
    show (if (Action.insert p c f v).kind = (Action.insert p2 c2 f2 v2).kind
        then TextHistory.try_merge_insert (Action.insert p2 c2 f2 v2) out
        else out ++ [Action.insert p2 c2 f2 v2]) = _
    rw [if_pos (show (Action.insert p c f v).kind =
      (Action.insert p2 c2 f2 v2).kind from rfl)]
    unfold TextHistory.try_merge_insert
    rw [hlast]
    show (if p2 = p + (c.length : Int)
        then out.dropLast ++ [Action.insert p (c ++ c2) f v2]
        else out ++ [Action.insert p2 c2 f2 v2]) = _
    rw [if_pos hp]
  · rfl

/-- Witness for C4: merging `insert("b", 1)` into an output list
ending in `insert("a", 0)`. -/
theorem insert_merge_spec_witness :
    TextHistory.optimizeStep [Action.insert 0 ['a'] 0 1]
        (Action.insert 1 ['b'] 1 2) =
      [Action.insert 0 ['a'] 0 1].dropLast ++
        [Action.insert 0 (['a'] ++ ['b']) 0 2] :=
  insert_merge_spec.1 [Action.insert 0 ['a'] 0 1] 0 ['a'] 0 1 1 ['b'] 1 2
    (by decide) (by decide)

/-- Sequential application distributes over list append. -/
theorem applyActions_append (xs ys : List Action) (t : List Char) :
    applyActions (xs ++ ys) t =
      (applyActions xs t).bind (fun u => applyActions ys u) := by
  induction xs generalizing t with
  | nil => rfl
  | cons a xs ih =>
      show (match a.apply t with
            | none => none
            | some u => applyActions (xs ++ ys) u) =
        (match a.apply t with
          | none => none
          | some u => applyActions xs u).bind (fun u => applyActions ys u)
      rcases a.apply t with _ | u
      · rfl
      · exact ih u

/-- A successful `TextHistory.action` call preserves the replay
invariant: the log replayed from the empty string still reproduces the
stored text. -/
theorem action_preserves_replay (h h' : TextHistory) (a : Action)
    (hr : h.action a = (h', none))
    (hinv : applyActions h.log [] = some h.text) :
    applyActions h'.log [] = some h'.text := by
  unfold TextHistory.action at hr
  by_cases hv : h.version ≠ a.from_version
  · rw [if_pos hv] at hr
    simp [Prod.ext_iff] at hr
  · rw [if_neg hv] at hr
    rcases happ : a.apply h.text with _ | t
    · rw [happ] at hr
      simp [Prod.ext_iff] at hr
    · rw [happ] at hr
      have hstate := congrArg Prod.fst hr
      simp only at hstate
      rw [← hstate]
      rw [applyActions_append, hinv]
      show applyActions [a] h.text = some t
      show (match a.apply h.text with
            | none => none
            | some u => applyActions [] u) = some t
      rw [happ]
      rfl

/-- Running one more successful mutation preserves the replay
invariant. -/
theorem runMutation_preserves_replay (h h' : TextHistory) (m : Mutation)
    (hr : h.runMutation m = (h', none))
    (hinv : applyActions h.log [] = some h.text) :
    applyActions h'.log [] = some h'.text := by
  cases m with
  | insert txt pos => exact action_preserves_replay h h' _ hr hinv
  | replace txt pos => exact action_preserves_replay h h' _ hr hinv
  | delete pos length => exact action_preserves_replay h h' _ hr hinv

/-- The replay invariant propagates along any successful run. -/
theorem runMutations_replay (ms : List Mutation) (h0 h : TextHistory)
    (hinv : applyActions h0.log [] = some h0.text)
    (hr : runMutations h0 ms = some h) :
    applyActions h.log [] = some h.text := by
  induction ms generalizing h0 with
  | nil =>
      cases hr
      exact hinv
  | cons m ms ih =>
      unfold runMutations at hr
      rcases hm : h0.runMutation m with ⟨h1, e⟩
      rw [hm] at hr
      cases e with
      | none =>
          exact ih h1 (runMutation_preserves_replay h0 h1 m hm hinv) hr
      | some e => cases hr

/-- C1.  Replay determinism: after any sequence of successful
mutations on a fresh history, folding the actions of the log over the
empty string reproduces the current text exactly. -/
theorem replay_determinism (ms : List Mutation) (h : TextHistory)
    (hr : runMutations initialHistory ms = some h) :
    applyActions h.log [] = some h.text :=
  runMutations_replay ms initialHistory h rfl hr

/-- Witness for C1 on a concrete run: an insert, a replace and a
delete. -/
theorem replay_determinism_witness :
    runMutations initialHistory
        [Mutation.insert ['a', 'b'] none, Mutation.replace ['c'] (some 0),
         Mutation.delete 0 1] =
      some { text := ['b'], version := 3,
             log := [Action.insert 0 ['a', 'b'] 0 1,
                     Action.replace 0 ['c'] 1 2, Action.delete 0 1 2 3] } ∧
    applyActions [Action.insert 0 ['a', 'b'] 0 1,
        Action.replace 0 ['c'] 1 2, Action.delete 0 1 2 3] [] =
      some ['b'] :=
  ⟨by decide,
   replay_determinism
    [Mutation.insert ['a', 'b'] none, Mutation.replace ['c'] (some 0),
     Mutation.delete 0 1]
    { text := ['b'], version := 3,
      log := [Action.insert 0 ['a', 'b'] 0 1,
              Action.replace 0 ['c'] 1 2, Action.delete 0 1 2 3] }
    (by decide)⟩

/-- A successful `TextHistory.action` call on an action spanning
`[version, version + 1)` extends the log by one entry and preserves
the log-indexing invariant. -/
theorem action_log_invariant (h h' : TextHistory) (a : Action)
    (hr : h.action a = (h', none))
    (hfrom : a.from_version = h.version)
    (hto : a.to_version = h.version + 1)
    (hlen : h.version = (h.log.length : Int))
    (hidx : ∀ i (hi : i < h.log.length),
      (h.log.get ⟨i, hi⟩).from_version = (i : Int) ∧
      (h.log.get ⟨i, hi⟩).to_version = (i : Int) + 1) :
    h'.log.length = h.log.length + 1 ∧
    h'.version = (h'.log.length : Int) ∧
    ∀ i (hi : i < h'.log.length),
      (h'.log.get ⟨i, hi⟩).from_version = (i : Int) ∧
      (h'.log.get ⟨i, hi⟩).to_version = (i : Int) + 1 := by
  unfold TextHistory.action at hr
  rw [if_neg (not_not_intro hfrom.symm)] at hr
  rcases happ : a.apply h.text with _ | t
  · rw [happ] at hr
    simp [Prod.ext_iff] at hr
  · rw [happ] at hr
    have hstate := congrArg Prod.fst hr
    simp only at hstate
    rw [← hstate]
    refine ⟨by simp, ?_, fun i hi => ?_⟩
    · show a.to_version = _
      simp only [List.length_append, List.length_cons, List.length_nil]
      rw [hto, hlen]
      push_cast
      ring
    simp only [List.length_append, List.length_cons, List.length_nil] at hi
    rcases Nat.lt_or_ge i h.log.length with hlt | hge
    · rw [List.get_append i hlt]
      exact hidx i hlt
    · have hieq : i = h.log.length := by omega
      subst hieq
      rw [List.get_of_append rfl rfl]
      constructor
      · rw [hfrom, hlen]
      · rw [hto, hlen]

/-- A successful mutation call extends the log by one entry and
preserves the log-indexing invariant (each public method constructs
its action with `from_version = version`,
`to_version = version + 1`). -/
theorem runMutation_log_invariant (h h' : TextHistory) (m : Mutation)
    (hr : h.runMutation m = (h', none))
    (hlen : h.version = (h.log.length : Int))
    (hidx : ∀ i (hi : i < h.log.length),
      (h.log.get ⟨i, hi⟩).from_version = (i : Int) ∧
      (h.log.get ⟨i, hi⟩).to_version = (i : Int) + 1) :
    h'.log.length = h.log.length + 1 ∧
    h'.version = (h'.log.length : Int) ∧
    ∀ i (hi : i < h'.log.length),
      (h'.log.get ⟨i, hi⟩).from_version = (i : Int) ∧
      (h'.log.get ⟨i, hi⟩).to_version = (i : Int) + 1 := by
  cases m with
  | insert txt pos =>
      exact action_log_invariant h h' _ hr rfl rfl hlen hidx
  | replace txt pos =>
      exact action_log_invariant h h' _ hr rfl rfl hlen hidx
  | delete pos length =>
      exact action_log_invariant h h' _ hr rfl rfl hlen hidx

/-- The log-indexing invariant propagates along any successful run,
and the log grows by exactly one entry per mutation. -/
theorem runMutations_log_invariant (ms : List Mutation) (h0 h : TextHistory)
    (hr : runMutations h0 ms = some h)
    (hlen : h0.version = (h0.log.length : Int))
    (hidx : ∀ i (hi : i < h0.log.length),
      (h0.log.get ⟨i, hi⟩).from_version = (i : Int) ∧
      (h0.log.get ⟨i, hi⟩).to_version = (i : Int) + 1) :
    h.log.length = h0.log.length + ms.length ∧
    h.version = (h.log.length : Int) ∧
    ∀ i (hi : i < h.log.length),
      (h.log.get ⟨i, hi⟩).from_version = (i : Int) ∧
      (h.log.get ⟨i, hi⟩).to_version = (i : Int) + 1 := by
  induction ms generalizing h0 with
  | nil =>
      cases hr
      exact ⟨by simp, hlen, hidx⟩
  | cons m ms ih =>
      unfold runMutations at hr
      rcases hm : h0.runMutation m with ⟨h1, e⟩
      rw [hm] at hr
      cases e with
      | none =>
          obtain ⟨hstep, hlen1, hidx1⟩ :=
            runMutation_log_invariant h0 h1 m hm hlen hidx
          obtain ⟨hrest, hlen2, hidx2⟩ := ih h1 hr hlen1 hidx1
          refine ⟨?_, hlen2, hidx2⟩
          rw [hrest, hstep]
          simp only [List.length_cons]
          omega
      | some e => cases hr

/-- C8.  After `n` successful mutations on a fresh history the version
equals `n`, the log has exactly `n` entries, and the `i`-th entry
spans the version interval `[i, i + 1)`. -/
theorem version_log_invariant (ms : List Mutation) (h : TextHistory)
    (hr : runMutations initialHistory ms = some h) :
    h.version = (ms.length : Int) ∧ h.log.length = ms.length ∧
    ∀ i (hi : i < h.log.length),
      (h.log.get ⟨i, hi⟩).from_version = (i : Int) ∧
      (h.log.get ⟨i, hi⟩).to_version = (i : Int) + 1 := by
  obtain ⟨hlen, hver, hidx⟩ :=
    runMutations_log_invariant ms initialHistory h hr rfl
      (fun i hi => absurd hi (by simp [initialHistory]))
  have hlen0 : h.log.length = ms.length := by
    rw [hlen]
    simp [initialHistory]
  exact ⟨by rw [hver, hlen0], hlen0, hidx⟩

/-- Witness for C8 on a concrete two-mutation run. -/
theorem version_log_invariant_witness :
    ({ text := ['a', 'b'], version := 2,
       log := [Action.insert 0 ['a'] 0 1, Action.insert 1 ['b'] 1 2] } :
        TextHistory).version = ((2 : Nat) : Int) ∧
    ({ text := ['a', 'b'], version := 2,
       log := [Action.insert 0 ['a'] 0 1, Action.insert 1 ['b'] 1 2] } :
        TextHistory).log.length = 2 ∧
    (([Action.insert 0 ['a'] 0 1, Action.insert 1 ['b'] 1 2] :
        List Action).get ⟨1, by decide⟩).from_version = ((1 : Nat) : Int) := by
  have hrun := version_log_invariant
    [Mutation.insert ['a'] (some 0), Mutation.insert ['b'] (some 1)]
    { text := ['a', 'b'], version := 2,
      log := [Action.insert 0 ['a'] 0 1, Action.insert 1 ['b'] 1 2] }
    (by decide)
  exact ⟨hrun.1, hrun.2.1, (hrun.2.2 1 (by decide)).1⟩

/-- Two inserts, the second at the exact end of the first's content,
behave on every text like the single merged insert: the failure
condition and the produced text coincide. -/
theorem insert_merge_apply (p : Int) (c c2 : List Char) (f v f2 v2 : Int)
    (t : List Char) :
    ((Action.insert p c f v).apply t).bind
        ((Action.insert (p + (c.length : Int)) c2 f2 v2).apply) =
      (Action.insert p (c ++ c2) f v2).apply t := by
  by_cases hp : p > (t.length : Int) ∨ p < 0
  · show ((if p > (t.length : Int) ∨ p < 0 then none
        else some (sliceTo t p ++ c ++ sliceFrom t p)).bind _) =
      (if p > (t.length : Int) ∨ p < 0 then none
        else some (sliceTo t p ++ (c ++ c2) ++ sliceFrom t p))
    rw [if_pos hp, if_pos hp]
    rfl
  · have h0 : 0 ≤ p := by omega
    have hle : p ≤ (t.length : Int) := by omega
    have hlen : (t.take p.toNat).length = p.toNat := by
      simp only [List.length_take]
      omega
    show ((if p > (t.length : Int) ∨ p < 0 then none
        else some (sliceTo t p ++ c ++ sliceFrom t p)).bind _) =
      (if p > (t.length : Int) ∨ p < 0 then none
        else some (sliceTo t p ++ (c ++ c2) ++ sliceFrom t p))
    rw [if_neg hp, if_neg hp, Option.some_bind,
      sliceTo_of_nonneg t p h0, sliceFrom_of_nonneg t p h0]
    show (if p + (c.length : Int) >
          ((t.take p.toNat ++ c ++ t.drop p.toNat).length : Int) ∨
          p + (c.length : Int) < 0 then none
        else some
          (sliceTo (t.take p.toNat ++ c ++ t.drop p.toNat)
              (p + (c.length : Int)) ++ c2 ++
            sliceFrom (t.take p.toNat ++ c ++ t.drop p.toNat)
              (p + (c.length : Int)))) = _
    rw [if_neg (by
      simp only [List.length_append, hlen, List.length_drop]
      omega)]
    rw [sliceTo_of_nonneg _ _ (by omega), sliceFrom_of_nonneg _ _ (by omega)]
    have hidx : (p + (c.length : Int)).toNat = (t.take p.toNat ++ c).length := by
      simp only [List.length_append, hlen]
      omega
    rw [hidx, List.append_assoc (t.take p.toNat) c (t.drop p.toNat),
      ← List.append_assoc (t.take p.toNat) c, List.take_left, List.drop_left]
    simp [List.append_assoc]

/-- Two deletes anchored at the same position, with non-negative
lengths, behave on every text like the single merged delete with the
summed length. -/
theorem delete_merge_apply (p l1 l2 f v f2 v2 : Int) (t : List Char)
    (h1 : 0 ≤ l1) (h2 : 0 ≤ l2) :
    ((Action.delete p l1 f v).apply t).bind
        ((Action.delete p l2 f2 v2).apply) =
      (Action.delete p (l1 + l2) f v2).apply t := by
  by_cases hp : p + l1 > (t.length : Int) ∨ p < 0
  · show ((if p + l1 > (t.length : Int) ∨ p < 0 then none
        else some (sliceTo t p ++ sliceFrom t (p + l1))).bind _) =
      (if p + (l1 + l2) > (t.length : Int) ∨ p < 0 then none
        else some (sliceTo t p ++ sliceFrom t (p + (l1 + l2))))
    rw [if_pos hp, if_pos (by omega)]
    rfl
  · have h0 : 0 ≤ p := by omega
    have hple : p + l1 ≤ (t.length : Int) := by omega
    have hlenA : (t.take p.toNat).length = p.toNat := by
      simp only [List.length_take]
      omega
    show ((if p + l1 > (t.length : Int) ∨ p < 0 then none
        else some (sliceTo t p ++ sliceFrom t (p + l1))).bind _) =
      (if p + (l1 + l2) > (t.length : Int) ∨ p < 0 then none
        else some (sliceTo t p ++ sliceFrom t (p + (l1 + l2))))
    rw [if_neg hp, Option.some_bind, sliceTo_of_nonneg t p h0,
      sliceFrom_of_nonneg t (p + l1) (by omega)]
    show (if p + l2 >
          ((t.take p.toNat ++ t.drop (p + l1).toNat).length : Int) ∨
          p < 0 then none
        else some
          (sliceTo (t.take p.toNat ++ t.drop (p + l1).toNat) p ++
            sliceFrom (t.take p.toNat ++ t.drop (p + l1).toNat) (p + l2))) = _
    have hlenS : (t.take p.toNat ++ t.drop (p + l1).toNat).length =
        t.length - (p + l1).toNat + p.toNat := by
      simp only [List.length_append, hlenA, List.length_drop]
      omega
    by_cases hov : p + (l1 + l2) > (t.length : Int)
    · rw [if_pos (by rw [hlenS]; omega), if_pos (by omega)]
    · rw [if_neg (by rw [hlenS]; omega), if_neg (by omega),
        sliceTo_of_nonneg _ _ h0, sliceFrom_of_nonneg _ _ (by omega)]
      congr 1
      have htake : p.toNat = (t.take p.toNat).length := hlenA.symm
      have hdropIdx : (p + l2).toNat = (t.take p.toNat).length + l2.toNat := by
        rw [hlenA]
        omega
      rw [hdropIdx, List.drop_append, List.drop_drop]
      nth_rewrite 1 [htake]
      rw [List.take_left]
      have harith : (p + l1).toNat + l2.toNat = (p + (l1 + l2)).toNat := by
        omega
      rw [harith, sliceFrom_of_nonneg t (p + (l1 + l2)) (by omega)]

/-- Applying a one-action list is applying the action. -/
theorem applyActions_single (a : Action) (t : List Char) :
    applyActions [a] t = a.apply t := by
  show (match a.apply t with
        | none => none
        | some u => applyActions [] u) = a.apply t
  rcases a.apply t with _ | u <;> rfl

/-- Applying a two-action list is composing the two applications. -/
theorem applyActions_pair (a b : Action) (t : List Char) :
    applyActions [a, b] t = (a.apply t).bind b.apply := by
  show (match a.apply t with
        | none => none
        | some u => applyActions [b] u) = _
  rcases a.apply t with _ | u
  · rfl
  · exact applyActions_single b u

/-- On an output list ending in an insert, the compaction step with an
insert candidate dispatches to `try_merge_insert`. -/
theorem optimizeStep_ins_ins (init : List Action) (p : Int) (c : List Char)
    (f v p2 : Int) (c2 : List Char) (f2 v2 : Int) :
    TextHistory.optimizeStep (init ++ [Action.insert p c f v])
        (Action.insert p2 c2 f2 v2) =
      TextHistory.try_merge_insert (Action.insert p2 c2 f2 v2)
        (init ++ [Action.insert p c f v]) := by
  unfold TextHistory.optimizeStep
  rw [List.getLast?_concat]
  rfl

/-- On an output list ending in a delete, the compaction step with a
delete candidate dispatches to `try_merge_delete`. -/
theorem optimizeStep_del_del (init : List Action) (p l f v p2 l2 f2 v2 : Int) :
    TextHistory.optimizeStep (init ++ [Action.delete p l f v])
        (Action.delete p2 l2 f2 v2) =
      TextHistory.try_merge_delete (Action.delete p2 l2 f2 v2)
        (init ++ [Action.delete p l f v]) := by
  unfold TextHistory.optimizeStep
  rw [List.getLast?_concat]
  rfl

/-- A replace candidate is always appended unchanged by the compaction
step. -/
theorem optimizeStep_rep_any (init : List Action) (last : Action) (p2 : Int)
    (c2 : List Char) (f2 v2 : Int) :
    TextHistory.optimizeStep (init ++ [last]) (Action.replace p2 c2 f2 v2) =
      (init ++ [last]) ++ [Action.replace p2 c2 f2 v2] := by
  cases last with
  | insert p c f v =>
      unfold TextHistory.optimizeStep
      rw [List.getLast?_concat]
      rfl
  | replace p c f v =>
      unfold TextHistory.optimizeStep
      rw [List.getLast?_concat]
      rfl
  | delete p l f v =>
      unfold TextHistory.optimizeStep
      rw [List.getLast?_concat]
      rfl

/-- An insert candidate after a delete entry is appended unchanged. -/
theorem optimizeStep_ins_after_del (init : List Action) (p l f v p2 : Int)
    (c2 : List Char) (f2 v2 : Int) :
    TextHistory.optimizeStep (init ++ [Action.delete p l f v])
        (Action.insert p2 c2 f2 v2) =
      (init ++ [Action.delete p l f v]) ++ [Action.insert p2 c2 f2 v2] := by
  unfold TextHistory.optimizeStep
  rw [List.getLast?_concat]
  rfl

/-- An insert candidate after a replace entry is appended unchanged. -/
theorem optimizeStep_ins_after_rep (init : List Action) (p : Int)
    (c : List Char) (f v p2 : Int) (c2 : List Char) (f2 v2 : Int) :
    TextHistory.optimizeStep (init ++ [Action.replace p c f v])
        (Action.insert p2 c2 f2 v2) =
      (init ++ [Action.replace p c f v]) ++ [Action.insert p2 c2 f2 v2] := by
  unfold TextHistory.optimizeStep
  rw [List.getLast?_concat]
  rfl

/-- A delete candidate after an insert entry is appended unchanged. -/
theorem optimizeStep_del_after_ins (init : List Action) (p : Int)
    (c : List Char) (f v p2 l2 f2 v2 : Int) :
    TextHistory.optimizeStep (init ++ [Action.insert p c f v])
        (Action.delete p2 l2 f2 v2) =
      (init ++ [Action.insert p c f v]) ++ [Action.delete p2 l2 f2 v2] := by
  unfold TextHistory.optimizeStep
  rw [List.getLast?_concat]
  rfl

/-- A delete candidate after a replace entry is appended unchanged. -/
theorem optimizeStep_del_after_rep (init : List Action) (p : Int)
    (c : List Char) (f v p2 l2 f2 v2 : Int) :
    TextHistory.optimizeStep (init ++ [Action.replace p c f v])
        (Action.delete p2 l2 f2 v2) =
      (init ++ [Action.replace p c f v]) ++ [Action.delete p2 l2 f2 v2] := by
  unfold TextHistory.optimizeStep
  rw [List.getLast?_concat]
  rfl

/-- Helper `try_merge_insert` with an adjacent candidate replaces the final
entry by the merged insert. -/
theorem try_merge_insert_adjacent (init : List Action) (p : Int)
    (c : List Char) (f v p2 : Int) (c2 : List Char) (f2 v2 : Int)
    (hpos : p2 = p + (c.length : Int)) :
    TextHistory.try_merge_insert (Action.insert p2 c2 f2 v2)
        (init ++ [Action.insert p c f v]) =
      init ++ [Action.insert p (c ++ c2) f v2] := by
  unfold TextHistory.try_merge_insert
  rw [List.getLast?_concat]
  show (if p2 = p + (c.length : Int) then
      (init ++ [Action.insert p c f v]).dropLast ++
        [Action.insert p (c ++ c2) f v2]
    else (init ++ [Action.insert p c f v]) ++
      [Action.insert p2 c2 f2 v2]) = _
  rw [if_pos hpos, List.dropLast_concat]

/-- Helper `try_merge_insert` with a non-adjacent candidate appends it. -/
theorem try_merge_insert_far (init : List Action) (p : Int)
    (c : List Char) (f v p2 : Int) (c2 : List Char) (f2 v2 : Int)
    (hpos : p2 ≠ p + (c.length : Int)) :
    TextHistory.try_merge_insert (Action.insert p2 c2 f2 v2)
        (init ++ [Action.insert p c f v]) =
      (init ++ [Action.insert p c f v]) ++ [Action.insert p2 c2 f2 v2] := by
  unfold TextHistory.try_merge_insert
  rw [List.getLast?_concat]
  show (if p2 = p + (c.length : Int) then
      (init ++ [Action.insert p c f v]).dropLast ++
        [Action.insert p (c ++ c2) f v2]
    else (init ++ [Action.insert p c f v]) ++
      [Action.insert p2 c2 f2 v2]) = _
  rw [if_neg hpos]

/-- Helper `try_merge_delete` with a same-position candidate replaces the
final entry by the merged delete. -/
theorem try_merge_delete_same (init : List Action) (p l f v p2 l2 f2 v2 : Int)
    (hpos : p = p2) :
    TextHistory.try_merge_delete (Action.delete p2 l2 f2 v2)
        (init ++ [Action.delete p l f v]) =
      init ++ [Action.delete p2 (l + l2) f v2] := by
  unfold TextHistory.try_merge_delete
  rw [List.getLast?_concat]
  show (if p = p2 then
      (init ++ [Action.delete p l f v]).dropLast ++
        [Action.delete p2 (l + l2) f v2]
    else (init ++ [Action.delete p l f v]) ++
      [Action.delete p2 l2 f2 v2]) = _
  rw [if_pos hpos, List.dropLast_concat]

/-- Helper `try_merge_delete` with a different-position candidate appends
it. -/
theorem try_merge_delete_other (init : List Action) (p l f v p2 l2 f2 v2 : Int)
    (hpos : p ≠ p2) :
    TextHistory.try_merge_delete (Action.delete p2 l2 f2 v2)
        (init ++ [Action.delete p l f v]) =
      (init ++ [Action.delete p l f v]) ++ [Action.delete p2 l2 f2 v2] := by
  unfold TextHistory.try_merge_delete
  rw [List.getLast?_concat]
  show (if p = p2 then
      (init ++ [Action.delete p l f v]).dropLast ++
        [Action.delete p2 (l + l2) f v2]
    else (init ++ [Action.delete p l f v]) ++
      [Action.delete p2 l2 f2 v2]) = _
  rw [if_neg hpos]

/-- One step of the compaction pass keeps every entry well-formed and
is semantically neutral: applying the stepped output list equals
applying the previous output list followed by the candidate. -/
theorem optimizeStep_props (out : List Action) (a : Action)
    (hout : ∀ x ∈ out, x.okLen = true) (ha : a.okLen = true) :
    (∀ x ∈ TextHistory.optimizeStep out a, x.okLen = true) ∧
    ∀ t, applyActions (TextHistory.optimizeStep out a) t =
      applyActions (out ++ [a]) t := by
  have happend : ∀ x ∈ out ++ [a], x.okLen = true := by
    intro x hx
    rcases List.mem_append.mp hx with hx1 | hx2
    · exact hout x hx1
    · simp at hx2
      subst hx2
      exact ha
  rcases List.eq_nil_or_concat' out with rfl | ⟨init, last, rfl⟩
  · exact ⟨happend, fun t => rfl⟩
  · have hmerge_apply : ∀ (b merged : Action),
        (∀ u, (b.apply u).bind a.apply = merged.apply u) →
        ∀ t, applyActions (init ++ [merged]) t =
          applyActions ((init ++ [b]) ++ [a]) t := by
      intro b merged hsem t
      rw [applyActions_append init [merged] t,
        show (init ++ [b]) ++ [a] = init ++ [b, a] from by
          rw [List.append_assoc]; rfl,
        applyActions_append init [b, a] t]
      congr 1
      funext u
      rw [applyActions_single, applyActions_pair, hsem u]
    have hmerge_ok : ∀ merged : Action, merged.okLen = true →
        ∀ x ∈ init ++ [merged], x.okLen = true := by
      intro merged hm x hx
      rcases List.mem_append.mp hx with hx1 | hx2
      · exact hout x (List.mem_append_left _ hx1)
      · simp at hx2
        subst hx2
        exact hm
    cases a with
    | replace p2 c2 f2 v2 =>
        rw [optimizeStep_rep_any]
        exact ⟨happend, fun t => rfl⟩
    | insert p2 c2 f2 v2 =>
        cases last with
        | replace p c f v =>
            rw [optimizeStep_ins_after_rep]
            exact ⟨happend, fun t => rfl⟩
        | delete p l f v =>
            rw [optimizeStep_ins_after_del]
            exact ⟨happend, fun t => rfl⟩
        | insert p c f v =>
            rw [optimizeStep_ins_ins]
            by_cases hpos : p2 = p + (c.length : Int)
            · rw [try_merge_insert_adjacent init p c f v p2 c2 f2 v2 hpos]
              refine ⟨hmerge_ok _ rfl, ?_⟩
              refine hmerge_apply (Action.insert p c f v) _ (fun u => ?_)
              rw [hpos]
              exact insert_merge_apply p c c2 f v f2 v2 u
            · rw [try_merge_insert_far init p c f v p2 c2 f2 v2 hpos]
              exact ⟨happend, fun t => rfl⟩
    | delete p2 l2 f2 v2 =>
        cases last with
        | replace p c f v =>
            rw [optimizeStep_del_after_rep]
            exact ⟨happend, fun t => rfl⟩
        | insert p c f v =>
            rw [optimizeStep_del_after_ins]
            exact ⟨happend, fun t => rfl⟩
        | delete p l f v =>
            have hl : 0 ≤ l := by
              have hmem := hout (Action.delete p l f v)
                (List.mem_append_right _ (List.mem_singleton_self _))
              simpa [Action.okLen] using hmem
            have hl2 : 0 ≤ l2 := by simpa [Action.okLen] using ha
            rw [optimizeStep_del_del]
            by_cases hpos : p = p2
            · rw [try_merge_delete_same init p l f v p2 l2 f2 v2 hpos]
              refine ⟨hmerge_ok _ (by simp [Action.okLen]; omega), ?_⟩
              refine hmerge_apply (Action.delete p l f v) _ (fun u => ?_)
              rw [← hpos]
              exact delete_merge_apply p l l2 f v f2 v2 u hl hl2
            · rw [try_merge_delete_other init p l f v p2 l2 f2 v2 hpos]
              exact ⟨happend, fun t => rfl⟩

/-- Folding the compaction step over a list of well-formed actions is
semantically neutral with respect to sequential application. -/
theorem foldl_optimizeStep_apply (l : List Action) (out : List Action)
    (hout : ∀ x ∈ out, x.okLen = true) (hl : ∀ x ∈ l, x.okLen = true) :
    ∀ t, applyActions (l.foldl TextHistory.optimizeStep out) t =
      applyActions (out ++ l) t := by
  induction l generalizing out with
  | nil =>
      intro t
      rw [List.append_nil]
      rfl
  | cons b l ih =>
      intro t
      have hb : b.okLen = true := hl b (List.mem_cons_self b l)
      have hl' : ∀ x ∈ l, x.okLen = true :=
        fun x hx => hl x (List.mem_cons_of_mem b hx)
      show applyActions
        (l.foldl TextHistory.optimizeStep (TextHistory.optimizeStep out b)) t = _
      rw [ih (TextHistory.optimizeStep out b)
          (optimizeStep_props out b hout hb).1 hl' t,
        applyActions_append, (optimizeStep_props out b hout hb).2 t,
        ← applyActions_append, List.append_assoc]
      rfl

/-- C5.  Compaction equivalence: for every list of data-model
well-formed actions (deletes carry a non-negative length) and every
text, applying the compacted list gives the same outcome — same final
text or same failure — as applying the original list. -/
theorem compaction_equivalence (l : List Action)
    (hw : ∀ a ∈ l, a.okLen = true) (t : List Char) :
    applyActions (TextHistory.optimize l) t = applyActions l t := by
  unfold TextHistory.optimize
  rw [foldl_optimizeStep_apply l [] (by simp) hw t]
  rfl

/-- Witness for C5: the compaction of two mergeable deletes after an
insert applies to `"ab"` exactly as the original log does. -/
theorem compaction_equivalence_witness :
    applyActions (TextHistory.optimize
        [Action.insert 0 ['a', 'b'] 0 1, Action.delete 0 1 1 2,
         Action.delete 0 1 2 3]) ['a', 'b'] =
      applyActions
        [Action.insert 0 ['a', 'b'] 0 1, Action.delete 0 1 1 2,
         Action.delete 0 1 2 3] ['a', 'b'] :=
  compaction_equivalence
    [Action.insert 0 ['a', 'b'] 0 1, Action.delete 0 1 1 2,
     Action.delete 0 1 2 3] (by decide) ['a', 'b']

/-- Formatting via `pyFormat` consumes a brace-free prefix verbatim and substitutes
the next argument at the following brace pair. -/
theorem pyFormat_chunk (pre rest : List Char) (a : String)
    (args : List String) (h : lbrace ∉ pre) :
    pyFormat (pre ++ lbrace :: rbrace :: rest) (a :: args) =
      pre ++ a.data ++ pyFormat rest args := by
  induction pre with
  | nil =>
      show pyFormat (lbrace :: rbrace :: rest) (a :: args) =
        a.data ++ pyFormat rest args
      rw [pyFormat, if_pos ⟨rfl, rfl⟩]
  | cons c pre ih =>
      have hc : c ≠ lbrace := fun hceq => h (hceq ▸ List.mem_cons_self c pre)
      have hpre : lbrace ∉ pre := fun hm => h (List.mem_cons_of_mem c hm)
      cases pre with
      | nil =>
          show pyFormat (c :: lbrace :: rbrace :: rest) (a :: args) = _
          rw [pyFormat, if_neg (fun hand => hc hand.1),
            pyFormat, if_pos ⟨rfl, rfl⟩]
          rfl
      | cons c2 pre2 =>
          show pyFormat (c :: c2 :: (pre2 ++ lbrace :: rbrace :: rest))
            (a :: args) = _
          simp only [List.cons_append] at ih
          rw [pyFormat, if_neg (fun hand => hc hand.1), ih hpre]
          rfl

/-- Formatting via `pyFormat` with no arguments left keeps the template verbatim. -/
theorem pyFormat_noargs (cs : List Char) : pyFormat cs [] = cs := by
  induction cs with
  | nil => rfl
  | cons c cs ih => rw [pyFormat, ih]

/-- C9, counterexample.  The debug strings do not follow the claimed
literal template: the insert rendering is not
`"insert(a, pos=0, ver1=0, ver2=1)"` (the backslash line continuation
embeds the next source line's indentation into the string), and the
delete rendering does not put its `length` payload before `pos`. -/
theorem action_str_counterexample :
    Action.str (Action.insert 0 ['a'] 0 1) ≠
      "insert(a, pos=0, ver1=0, ver2=1)" ∧
    Action.str (Action.delete 1 2 5 6) ≠
      "delete(2, pos=1, ver1=5, ver2=6)" := by
  constructor
  · decide
  · decide

/-- C9, amended.  Each action's debug string follows its source
template with two deviations from the claimed one: after
`"pos=<position>, "` the 16 spaces of continuation-line indentation
are embedded (the template string wraps over a backslash line
continuation), and the delete variant renders `pos` before its
`length` payload. -/
theorem action_str_amended (p f v l : Int) (c : List Char) :
    Action.str (Action.insert p c f v) =
      "insert(" ++ String.mk c ++ ", pos=" ++ toString p ++ ", " ++
        "                " ++ "ver1=" ++ toString f ++ ", ver2=" ++
        toString v ++ ")" ∧
    Action.str (Action.replace p c f v) =
      "replace(" ++ String.mk c ++ ", pos=" ++ toString p ++ ", " ++
        "                " ++ "ver1=" ++ toString f ++ ", ver2=" ++
        toString v ++ ")" ∧
    Action.str (Action.delete p l f v) =
      "delete(pos=" ++ toString p ++ ", length=" ++ toString l ++ ", " ++
        "                " ++ "ver1=" ++ toString f ++ ", ver2=" ++
        toString v ++ ")" := by
  have hdata : ∀ a b : String, (a ++ b).data = a.data ++ b.data :=
    fun _ _ => rfl
  have hmk : ∀ lc : List Char, (String.mk lc).data = lc := fun _ => rfl
  refine ⟨?_, ?_, ?_⟩
  · refine String.ext ?_
    show pyFormat insertTemplate.data
        [String.mk c, toString p, toString f, toString v] = _
    rw [show insertTemplate.data =
        "insert(".data ++ lbrace :: rbrace ::
          (", pos=".data ++ lbrace :: rbrace ::
            ((", " ++ "                " ++ "ver1=").data ++ lbrace :: rbrace ::
              (", ver2=".data ++ lbrace :: rbrace :: ")".data))) from by
        decide]
    rw [pyFormat_chunk _ _ _ _ (by decide), pyFormat_chunk _ _ _ _ (by decide),
      pyFormat_chunk _ _ _ _ (by decide), pyFormat_chunk _ _ _ _ (by decide),
      pyFormat_noargs]
    simp [hdata, hmk, List.append_assoc]
  · refine String.ext ?_
    show pyFormat replaceTemplate.data
        [String.mk c, toString p, toString f, toString v] = _
    rw [show replaceTemplate.data =
        "replace(".data ++ lbrace :: rbrace ::
          (", pos=".data ++ lbrace :: rbrace ::
            ((", " ++ "                " ++ "ver1=").data ++ lbrace :: rbrace ::
              (", ver2=".data ++ lbrace :: rbrace :: ")".data))) from by
        decide]
    rw [pyFormat_chunk _ _ _ _ (by decide), pyFormat_chunk _ _ _ _ (by decide),
      pyFormat_chunk _ _ _ _ (by decide), pyFormat_chunk _ _ _ _ (by decide),
      pyFormat_noargs]
    simp [hdata, hmk, List.append_assoc]
  · refine String.ext ?_
    show pyFormat deleteTemplate.data
        [toString p, toString l, toString f, toString v] = _
    rw [show deleteTemplate.data =
        "delete(pos=".data ++ lbrace :: rbrace ::
          (", length=".data ++ lbrace :: rbrace ::
            ((", " ++ "                " ++ "ver1=").data ++ lbrace :: rbrace ::
              (", ver2=".data ++ lbrace :: rbrace :: ")".data))) from by
        decide]
    rw [pyFormat_chunk _ _ _ _ (by decide), pyFormat_chunk _ _ _ _ (by decide),
      pyFormat_chunk _ _ _ _ (by decide), pyFormat_chunk _ _ _ _ (by decide),
      pyFormat_noargs]
    simp [hdata, hmk, List.append_assoc]

end TH
